import Mathlib

/-!
Shallow embedding of the Minesweeper AI (`minesweeper.py`) and verification
of the specification's claims about it.

The embedding covers the inference core: `Sentence` (cells + mine count),
the solver state of `MinesweeperAI` (`moves_made`, `mines`, `safes`,
`knowledge`), the operations `mark_mine`, `mark_safe`, `add_knowledge`
(observation sentence construction, direct-extraction pass, subset-elimination
while-loop) and `make_safe_move`.

Python sets of board cells are modelled as `Finset (ℤ × ℤ)` (cell coordinates
may be negative in neighbour enumeration, and the code never bounds-checks the
observed cell itself); Python ints are `ℤ`.  Where the Python code iterates
over a set in unspecified order, the embedding iterates over the set sorted in
lexicographic order; the operations performed (marking cells safe / as mines)
commute for distinct cells, so the choice of order does not change the result.
The unbounded `while True` derivation loop of `add_knowledge` is modelled with
explicit step fuel: one unit of fuel per loop-machine step, `none` meaning the
loop has not finished within the given fuel (so "the call terminates" is
"some fuel suffices").  Python's `for x in lst` iterates by index and hence
sees elements appended during the iteration; the loop machine models exactly
that.
-/

namespace MSAI

/-- A board cell: a (row, column) pair of integers. -/
abbrev Cell : Type := ℤ × ℤ

/-- Lexicographic order on cells, used only to iterate over a Python set in a
definite order. -/
def cellLe (a b : Cell) : Prop := a.1 < b.1 ∨ (a.1 = b.1 ∧ a.2 ≤ b.2)

instance : DecidableRel cellLe := fun a b => by
  unfold cellLe; exact inferInstance

instance : IsTrans Cell cellLe := by
  refine ⟨fun a b c hab hbc => ?_⟩
  rcases hab with h | ⟨h1, h2⟩ <;> rcases hbc with h' | ⟨h1', h2'⟩ <;>
    unfold cellLe <;> omega

instance : IsAntisymm Cell cellLe := by
  refine ⟨fun a b hab hba => ?_⟩
  have h1 : a.1 = b.1 ∧ a.2 = b.2 := by
    rcases hab with h | ⟨h1, h2⟩ <;> rcases hba with h' | ⟨h1', h2'⟩ <;> omega
  exact Prod.ext h1.1 h1.2

instance : IsTotal Cell cellLe := by
  refine ⟨fun a b => ?_⟩
  unfold cellLe
  omega

/-- Insert a cell into a sorted list of cells (insertion sort step).
Insertion sort is used instead of `Finset.sort` because it is structurally
recursive and therefore evaluates inside the kernel. -/
def insertCell (c : Cell) : List Cell → List Cell
  | [] => [c]
  | d :: l => if cellLe c d then c :: d :: l else d :: insertCell c l

/-- Insertion sort of a list of cells. -/
def sortCellList : List Cell → List Cell
  | [] => []
  | c :: l => insertCell c (sortCellList l)

theorem insertCell_perm (c : Cell) (l : List Cell) :
    List.Perm (insertCell c l) (c :: l) := by
  induction l with
  | nil => simp [insertCell]
  | cons d l ih =>
    by_cases h : cellLe c d
    · simp [insertCell, h]
    · simp only [insertCell, if_neg h]
      exact (List.Perm.cons d ih).trans (List.Perm.swap c d l)

theorem sortCellList_perm (l : List Cell) : List.Perm (sortCellList l) l := by
  induction l with
  | nil => simp [sortCellList]
  | cons c l ih =>
    exact (insertCell_perm c (sortCellList l)).trans (List.Perm.cons c ih)

theorem insertCell_sorted (c : Cell) (l : List Cell)
    (h : l.Sorted cellLe) : (insertCell c l).Sorted cellLe := by
  induction l with
  | nil => simp [insertCell]
  | cons d l ih =>
    by_cases hcd : cellLe c d
    · rw [insertCell, if_pos hcd]
      refine List.sorted_cons.mpr ⟨?_, h⟩
      intro b hb
      rcases List.mem_cons.mp hb with rfl | hb
      · exact hcd
      · exact Trans.trans hcd ((List.sorted_cons.mp h).1 b hb)
    · rw [insertCell, if_neg hcd]
      have hdl := List.sorted_cons.mp h
      refine List.sorted_cons.mpr ⟨?_, ih hdl.2⟩
      intro b hb
      have hb' : b ∈ c :: l := (insertCell_perm c l).mem_iff.mp hb
      rcases List.mem_cons.mp hb' with rfl | hb'
      · rcases (IsTotal.total (r := cellLe) b d) with h' | h'
        · exact absurd h' hcd
        · exact h'
      · exact hdl.1 b hb'

theorem sortCellList_sorted (l : List Cell) :
    (sortCellList l).Sorted cellLe := by
  induction l with
  | nil => simp [sortCellList]
  | cons c l ih => exact insertCell_sorted c _ ih

/-- Enumerate a Python set of cells as a list, in lexicographic order. -/
def sortCells (s : Finset Cell) : List Cell :=
  Quot.liftOn s.val sortCellList fun a b hab =>
    List.eq_of_perm_of_sorted
      ((sortCellList_perm a).trans ((Quotient.exact (Quot.sound hab)).trans
        (sortCellList_perm b).symm))
      (sortCellList_sorted a) (sortCellList_sorted b)

theorem mem_sortCells {s : Finset Cell} {c : Cell} : c ∈ sortCells s ↔ c ∈ s := by
  rcases s with ⟨m, hm⟩
  induction m using Quot.ind with
  | _ l =>
    show c ∈ sortCellList l ↔ _
    rw [(sortCellList_perm l).mem_iff]
    exact Iff.rfl

/-- `class Sentence`: a set of board cells together with a count of how many
of them are mines.  Python's `__eq__` compares `cells` and `count`, which is
exactly structural equality here. -/
structure Sentence where
  cells : Finset Cell
  count : ℤ
deriving DecidableEq

namespace Sentence

/-- `Sentence.known_mines`: `cells` if `len(cells) == count and count > 0`,
else the empty set. -/
def known_mines (s : Sentence) : Finset Cell :=
  if (s.cells.card : ℤ) = s.count ∧ 0 < s.count then s.cells else ∅

/-- `Sentence.known_safes`: `cells` if `count == 0`, else the empty set. -/
def known_safes (s : Sentence) : Finset Cell :=
  if s.count = 0 then s.cells else ∅

/-- `Sentence.mark_mine`: if the cell is in the sentence, remove it and
decrement the count. -/
def mark_mine (c : Cell) (s : Sentence) : Sentence :=
  if c ∈ s.cells then ⟨s.cells.erase c, s.count - 1⟩ else s

/-- `Sentence.mark_safe`: if the cell is in the sentence, remove it (count
unchanged). -/
def mark_safe (c : Cell) (s : Sentence) : Sentence :=
  if c ∈ s.cells then ⟨s.cells.erase c, s.count⟩ else s

end Sentence

/-- The state of `class MinesweeperAI`: grid dimensions, the cells already
clicked, the cells known to be mines or safe, and the list of sentences. -/
structure MinesweeperAI where
  height : ℤ
  width : ℤ
  moves_made : Finset Cell
  mines : Finset Cell
  safes : Finset Cell
  knowledge : List Sentence
deriving DecidableEq

namespace MinesweeperAI

/-- `MinesweeperAI.__init__`: empty sets, empty knowledge. -/
def init (height width : ℤ) : MinesweeperAI :=
  ⟨height, width, ∅, ∅, ∅, []⟩

/-- `MinesweeperAI.mark_mine`: add the cell to `self.mines` and call
`Sentence.mark_mine` on every sentence in `self.knowledge`. -/
def mark_mine (s : MinesweeperAI) (c : Cell) : MinesweeperAI :=
  { s with mines := insert c s.mines,
           knowledge := s.knowledge.map (Sentence.mark_mine c) }

/-- `MinesweeperAI.mark_safe`: add the cell to `self.safes` and call
`Sentence.mark_safe` on every sentence in `self.knowledge`. -/
def mark_safe (s : MinesweeperAI) (c : Cell) : MinesweeperAI :=
  { s with safes := insert c s.safes,
           knowledge := s.knowledge.map (Sentence.mark_safe c) }

/-- The nine positions enumerated by the nested loops
`for i in range(cell[0] - 1, cell[0] + 2): for j in range(cell[1] - 1,
cell[1] + 2)` of `add_knowledge`, in iteration order. -/
def nbhdList (c : Cell) : List Cell :=
  [(c.1 - 1, c.2 - 1), (c.1 - 1, c.2), (c.1 - 1, c.2 + 1),
   (c.1, c.2 - 1), (c.1, c.2), (c.1, c.2 + 1),
   (c.1 + 1, c.2 - 1), (c.1 + 1, c.2), (c.1 + 1, c.2 + 1)]

/-- Body of the neighbour loop of `add_knowledge`: skip the cell itself; if
the neighbour is a known mine, decrement the running count; otherwise, if it
is in bounds and not known safe and not a move already made, append it to the
undetermined-cells list. -/
def scanStep (s : MinesweeperAI) (cell : Cell) (acc : List Cell × ℤ)
    (p : Cell) : List Cell × ℤ :=
  if p = cell then acc
  else if p ∈ s.mines then (acc.1, acc.2 - 1)
  else if 0 ≤ p.1 ∧ p.1 < s.height ∧ 0 ≤ p.2 ∧ p.2 < s.width ∧
          p ∉ s.safes ∧ p ∉ s.moves_made then (acc.1 ++ [p], acc.2)
  else acc

/-- Steps 1-3 of `add_knowledge`: record the move, mark the observed cell
safe, scan the neighbourhood, and append the resulting new sentence. -/
def observePhase (s : MinesweeperAI) (cell : Cell) (count : ℤ) :
    MinesweeperAI :=
  let s1 : MinesweeperAI := { s with moves_made := insert cell s.moves_made }
  let s2 : MinesweeperAI := s1.mark_safe cell
  let scanned : List Cell × ℤ := (nbhdList cell).foldl (scanStep s2 cell) ([], count)
  { s2 with knowledge := s2.knowledge ++ [⟨scanned.1.toFinset, scanned.2⟩] }

/-- Processing of one sentence in the direct-extraction loop of
`add_knowledge`: mark every cell of `known_safes()` safe (iterating over a
snapshot copy, as the Python code does), then mark every cell of
`known_mines()` of the (now possibly mutated) sentence as a mine. -/
def extractOne (s : MinesweeperAI) (i : ℕ) : MinesweeperAI :=
  match s.knowledge[i]? with
  | none => s
  | some st =>
    let s' := (sortCells st.known_safes).foldl mark_safe s
    match s'.knowledge[i]? with
    | none => s'
    | some st' => (sortCells st'.known_mines).foldl mark_mine s'

/-- The direct-extraction pass of `add_knowledge`: process every sentence of
the knowledge base in order (marks mutate sentences in place but never change
the length of the list). -/
def extractionPass (s : MinesweeperAI) : MinesweeperAI :=
  (List.range s.knowledge.length).foldl extractOne s

/-- The subset-elimination `while True` loop of `add_knowledge`, as a step
machine consuming one unit of fuel per step.  `K` is `self.knowledge`, `i`
and `j` are the cursors of the outer and inner `for` loops (Python list
iteration is by index, so sentences appended during iteration are visited),
`made` is `new_inference_made`.  Returns `none` when fuel runs out before the
loop exits. -/
def subsetLoop : ℕ → List Sentence → ℕ → ℕ → Bool → Option (List Sentence)
  | 0, _, _, _, _ => none
  | Nat.succ n, K, i, j, made =>
    if h : i < K.length then
      if h2 : j < K.length then
        let A := K.get ⟨i, h⟩
        let B := K.get ⟨j, h2⟩
        if B.cells ⊆ A.cells ∧ A.count ≠ 0 ∧ B.count ≠ 0 ∧ A ≠ B then
          let C : Sentence := ⟨A.cells \ B.cells, A.count - B.count⟩
          if C ∈ K then subsetLoop n K i (j + 1) made
          else subsetLoop n (K ++ [C]) i (j + 1) true
        else subsetLoop n K i (j + 1) made
      else subsetLoop n K (i + 1) 0 made
    else
      if made then subsetLoop n K 0 0 false else some K

/-- `MinesweeperAI.add_knowledge`: observation phase, direct-extraction pass,
then the subset-elimination loop (with fuel); `none` means the loop did not
finish within the given fuel. -/
def add_knowledge (fuel : ℕ) (s : MinesweeperAI) (cell : Cell) (count : ℤ) :
    Option MinesweeperAI :=
  let s2 := extractionPass (observePhase s cell count)
  (subsetLoop fuel s2.knowledge 0 0 false).map fun K => { s2 with knowledge := K }

/-- `MinesweeperAI.make_safe_move`: return the first known-safe cell that is
not a move already made, or `none`.  (The Python loop iterates `self.safes`
in unspecified set order and returns on the first hit; the embedding iterates
in sorted order.)  The function reads the state and performs no mutation. -/
def make_safe_move (s : MinesweeperAI) : Option Cell :=
  (sortCells s.safes).find? fun c => decide (c ∉ s.moves_made)

end MinesweeperAI

end MSAI

namespace MSAI

open MinesweeperAI

/-! ### Concrete states used by the counterexamples

Each of these states is produced by running `add_knowledge` from a freshly
initialised solver (the corresponding theorems check this), so the
counterexamples are about reachable states. -/

/-- State of a 1x1 solver after `add_knowledge((0,0), 5)`: one degenerate
sentence with an empty cell set and count 5. -/
def c1s1 : MinesweeperAI := ⟨1, 1, {(0, 0)}, ∅, {(0, 0)}, [⟨∅, 5⟩]⟩

/-- State of a 2x1 solver after `add_knowledge((0,0), 1)`: the lone neighbour
(1,0) was immediately resolved as a mine. -/
def c2s1 : MinesweeperAI := ⟨2, 1, {(0, 0)}, {(1, 0)}, {(0, 0)}, [⟨∅, 0⟩]⟩

/-- State of a 2x1 solver after additionally observing the known mine
`add_knowledge((1,0), 0)`: cell (1,0) is now in `mines` and in `safes`. -/
def c2s2 : MinesweeperAI :=
  ⟨2, 1, {(1, 0), (0, 0)}, {(1, 0)}, {(1, 0), (0, 0)}, [⟨∅, 0⟩, ⟨∅, 0⟩]⟩

/-- State of a 1x5 solver after `add_knowledge((0,2), 1)`: a single
two-cell sentence. -/
def mid15 : MinesweeperAI :=
  ⟨1, 5, {(0, 2)}, ∅, {(0, 2)}, [⟨{(0, 1), (0, 3)}, 1⟩]⟩

/-- A 1x6 solver state whose knowledge holds the two sentences
`A = ({(0,0),(0,1),(0,2)}, 1)` and `B = ({(0,0),(0,1)}, 1)` of the
subset-rule scenario. -/
def c3s0 : MinesweeperAI :=
  ⟨1, 6, ∅, ∅, ∅, [⟨{(0, 0), (0, 1), (0, 2)}, 1⟩, ⟨{(0, 0), (0, 1)}, 1⟩]⟩

/-- Result of `add_knowledge((0,5), 0)` on `c3s0`: the subset rule has
derived `({(0,2)}, 0)`, but (0,2) has not been marked safe. -/
def c3s1 : MinesweeperAI :=
  ⟨1, 6, {(0, 5)}, ∅, {(0, 4), (0, 5)},
   [⟨{(0, 0), (0, 1), (0, 2)}, 1⟩, ⟨{(0, 0), (0, 1)}, 1⟩, ⟨∅, 0⟩,
    ⟨{(0, 2)}, 0⟩]⟩

/-! ### C8: idempotence of confirmation -/

/-- Marking a mine twice in a sentence is the same as marking it once. -/
theorem sentence_mark_mine_idem (c : Cell) (st : Sentence) :
    Sentence.mark_mine c (Sentence.mark_mine c st) = Sentence.mark_mine c st := by
  unfold Sentence.mark_mine
  by_cases h : c ∈ st.cells
  · simp [h, Finset.not_mem_erase]
  · simp [h]

/-- Marking a cell safe twice in a sentence is the same as marking it once. -/
theorem sentence_mark_safe_idem (c : Cell) (st : Sentence) :
    Sentence.mark_safe c (Sentence.mark_safe c st) = Sentence.mark_safe c st := by
  unfold Sentence.mark_safe
  by_cases h : c ∈ st.cells
  · simp [h, Finset.not_mem_erase]
  · simp [h]

/-- C8: for every cell `c` and every solver state (in particular every
reachable one), calling `mark_mine c` twice in immediate succession yields a
state identical to calling it once, and likewise for `mark_safe c`. -/
theorem C8_confirm_idempotent (s : MinesweeperAI) (c : Cell) :
    (s.mark_mine c).mark_mine c = s.mark_mine c ∧
    (s.mark_safe c).mark_safe c = s.mark_safe c := by
  constructor
  · simp [mark_mine, Finset.insert_idem, sentence_mark_mine_idem,
      Function.comp_def]
  · simp [mark_safe, Finset.insert_idem, sentence_mark_safe_idem,
      Function.comp_def]

/-! ### C9: the `make_safe_move` contract

`make_safe_move` is a pure function of the state in this embedding, exactly
as in the source, which only reads `self.safes` and `self.moves_made`; the
theorem states the value contract. -/

/-- C9: if `make_safe_move` returns a cell, that cell is known safe and not a
move already made; and it returns `none` exactly when every known-safe cell
has already been played (`safes \ moves_made = ∅`). -/
theorem C9_make_safe_move_spec (s : MinesweeperAI) :
    (∀ c, make_safe_move s = some c → c ∈ s.safes ∧ c ∉ s.moves_made) ∧
    (make_safe_move s = none ↔ s.safes \ s.moves_made = ∅) := by
  constructor
  · intro c hc
    have h1 : c ∈ sortCells s.safes := List.mem_of_find?_eq_some hc
    have h2 := List.find?_some hc
    simp only [decide_eq_true_eq] at h2
    exact ⟨mem_sortCells.mp h1, h2⟩
  · rw [make_safe_move, List.find?_eq_none, Finset.sdiff_eq_empty_iff_subset]
    constructor
    · intro h c hc
      have := h c (mem_sortCells.mpr hc)
      simpa using this
    · intro h c hc
      have := h (mem_sortCells.mp hc)
      simp [this]

/-- Witness for C9 at a concrete state with `safes = {(0,0)}` and no moves
made. -/
theorem C9_witness :
    make_safe_move ⟨1, 1, ∅, ∅, {(0, 0)}, []⟩ = some (0, 0) ∧
    ((0, 0) : Cell) ∈ (⟨1, 1, ∅, ∅, {(0, 0)}, []⟩ : MinesweeperAI).safes ∧
    ((0, 0) : Cell) ∉ (⟨1, 1, ∅, ∅, {(0, 0)}, []⟩ : MinesweeperAI).moves_made := by
  refine ⟨by decide, ?_⟩
  exact (C9_make_safe_move_spec ⟨1, 1, ∅, ∅, {(0, 0)}, []⟩).1 (0, 0) (by decide)

end MSAI

namespace MSAI

open MinesweeperAI

/-- Result of `add_knowledge((0,4), 0)` on `c3s1`: the extraction pass of
this next call finally marks (0,2) safe. -/
def c3s2 : MinesweeperAI :=
  ⟨1, 6, {(0, 4), (0, 5)}, ∅, {(0, 3), (0, 2), (0, 4), (0, 5)},
   [⟨{(0, 0), (0, 1)}, 1⟩, ⟨{(0, 0), (0, 1)}, 1⟩, ⟨∅, 0⟩, ⟨∅, 0⟩, ⟨∅, 0⟩]⟩

/-- Result of `add_knowledge((0,1), 0)` on `mid15`; the pair
`({(0,1),(0,3)}, 1)` held before the call is no longer present. -/
def c7s2 : MinesweeperAI :=
  ⟨1, 5, {(0, 1), (0, 2)}, {(0, 3)}, {(0, 0), (0, 1), (0, 2)},
   [⟨∅, 0⟩, ⟨∅, 0⟩]⟩

/-! ### C2: the disjointness invariant fails on reachable states -/

/-- C2 counterexample: on a 2x1 grid, `add_knowledge((0,0), 1)` resolves
(1,0) as a mine; the driver then observes the known mine with
`add_knowledge((1,0), 0)` (an in-bounds cell with a non-negative count), and
in the resulting reachable state `knownMines ∩ knownSafe = {(1,0)} ≠ ∅`. -/
theorem C2_counterexample :
    add_knowledge 30 (init 2 1) (0, 0) 1 = some c2s1 ∧
    add_knowledge 30 c2s1 (1, 0) 0 = some c2s2 ∧
    c2s2.mines ∩ c2s2.safes ≠ ∅ := by decide

/-! ### C3: the derived sentence is appended, but only a later call marks it -/

/-- C3 counterexample: with knowledge containing `A = ({a,b,c}, 1)` and
`B = ({a,b}, 1)` (for `a = (0,0)`, `b = (0,1)`, `c = (0,2)`), a
`recordObservation` call does append the derived sentence `({c}, 0)`, but the
extraction pass of that same call has already run before the subset rule
fires, so `c` is not placed in `knownSafe` by the call, contradicting the
claim. -/
theorem C3_counterexample :
    add_knowledge 200 c3s0 (0, 5) 0 = some c3s1 ∧
    (⟨{(0, 2)}, 0⟩ : Sentence) ∈ c3s1.knowledge ∧
    ((0, 2) : Cell) ∉ c3s1.safes := by decide

/-! ### C4: soundness of direct extraction fails for sentences mutated after
their examination -/

/-- C4 counterexample: on a 1x5 grid with knowledge `({(0,1),(0,3)}, 1)`
(reached by `add_knowledge((0,2), 1)`), the extraction pass of the call
`add_knowledge((0,0), 1)` processes the two-cell sentence first, then
resolves (0,1) as a mine from the new sentence, mutating the first sentence
into `({(0,3)}, 0)`.  After the pass there is a stored sentence with count 0
whose cell (0,3) is not in `knownSafe`. -/
theorem C4_counterexample :
    add_knowledge 50 (init 1 5) (0, 2) 1 = some mid15 ∧
    (⟨{(0, 3)}, 0⟩ : Sentence) ∈
      (extractionPass (observePhase mid15 (0, 0) 1)).knowledge ∧
    ((0, 3) : Cell) ∉ (extractionPass (observePhase mid15 (0, 0) 1)).safes := by
  decide

/-! ### C5: there is no precondition check -/

/-- C5 counterexample: `add_knowledge` with the out-of-bounds cell (5,5) and
the negative count -1 on a 2x2 grid does not fail: it runs the normal code
path to completion and mutates the state (the out-of-bounds cell enters
`moves_made` and `safes`, and a sentence with count -1 is appended). -/
theorem C5_counterexample :
    add_knowledge 20 (init 2 2) (5, 5) (-1) =
      some ⟨2, 2, {(5, 5)}, ∅, {(5, 5)}, [⟨∅, -1⟩]⟩ := by decide

/-- C5 amended: `add_knowledge` performs no bounds or sign check at all: for
every state, every cell (in bounds or not) and every count (negative or not),
the observation phase unconditionally records the move, marks the cell safe
and appends exactly one new sentence. -/
theorem C5_no_precondition_check (s : MinesweeperAI) (cell : Cell)
    (count : ℤ) :
    (observePhase s cell count).moves_made = insert cell s.moves_made ∧
    (observePhase s cell count).safes = insert cell s.safes ∧
    (observePhase s cell count).knowledge.length = s.knowledge.length + 1 := by
  refine ⟨rfl, rfl, ?_⟩
  simp [observePhase, mark_safe]

/-! ### C7: stored (cell-set, count) pairs are not preserved -/

/-- C7 counterexample: the pair `({(0,1),(0,3)}, 1)` is stored before the
call `add_knowledge((0,1), 0)` on `mid15` (a reachable state of a 1x5
solver), but after the call no stored sentence has that value any more: the
call mutated the sentence in place. -/
theorem C7_counterexample :
    add_knowledge 50 (init 1 5) (0, 2) 1 = some mid15 ∧
    (⟨{(0, 1), (0, 3)}, 1⟩ : Sentence) ∈ mid15.knowledge ∧
    add_knowledge 50 mid15 (0, 1) 0 = some c7s2 ∧
    (⟨{(0, 1), (0, 3)}, 1⟩ : Sentence) ∉ c7s2.knowledge := by decide

end MSAI

namespace MSAI

open MinesweeperAI

/-! ### C6: construction of the observation sentence -/

/-- The neighbourhood of a cell as described by the claim: the up-to-8
adjacent cells (the 3x3 block around the cell), excluding the cell itself. -/
def specNbhd (c : Cell) : Finset Cell := (nbhdList c).toFinset.erase c

/-- The observation sentence as described by the claim: its cell set is the
set of in-bounds neighbours of the observed cell that are not in `mines`,
`safes` or `moves_made` (all taken in the pre-call state), and its count is
the given count minus the number of neighbours that are in `mines`. -/
def specSentence (s : MinesweeperAI) (cell : Cell) (k : ℤ) : Sentence :=
  ⟨(specNbhd cell).filter (fun p => 0 ≤ p.1 ∧ p.1 < s.height ∧ 0 ≤ p.2 ∧
      p.2 < s.width ∧ p ∉ s.mines ∧ p ∉ s.safes ∧ p ∉ s.moves_made),
   k - ((specNbhd cell).filter (fun p => p ∈ s.mines)).card⟩

theorem scanStep_foldl_fst (s : MinesweeperAI) (cell : Cell) (l : List Cell)
    (acc : List Cell) (k : ℤ) :
    (l.foldl (scanStep s cell) (acc, k)).1 =
      acc ++ l.filter (fun p => decide (p ≠ cell ∧ p ∉ s.mines ∧
        0 ≤ p.1 ∧ p.1 < s.height ∧ 0 ≤ p.2 ∧ p.2 < s.width ∧
        p ∉ s.safes ∧ p ∉ s.moves_made)) := by
  induction l generalizing acc k with
  | nil => simp
  | cons p l ih =>
    by_cases h1 : p = cell
    · subst h1
      rw [List.foldl_cons]
      show (l.foldl (scanStep s p) (scanStep s p (acc, k) p)).1 = _
      rw [scanStep, if_pos rfl]
      rw [ih]
      simp
    · by_cases h2 : p ∈ s.mines
      · rw [List.foldl_cons]
        show (l.foldl (scanStep s cell) (scanStep s cell (acc, k) p)).1 = _
        rw [scanStep, if_neg h1, if_pos h2]
        rw [ih]
        have : ¬(p ≠ cell ∧ p ∉ s.mines ∧ 0 ≤ p.1 ∧ p.1 < s.height ∧
            0 ≤ p.2 ∧ p.2 < s.width ∧ p ∉ s.safes ∧ p ∉ s.moves_made) := by
          intro hc
          exact hc.2.1 h2
        simp [this]
      · by_cases h3 : 0 ≤ p.1 ∧ p.1 < s.height ∧ 0 ≤ p.2 ∧ p.2 < s.width ∧
            p ∉ s.safes ∧ p ∉ s.moves_made
        · rw [List.foldl_cons]
          show (l.foldl (scanStep s cell) (scanStep s cell (acc, k) p)).1 = _
          rw [scanStep, if_neg h1, if_neg h2, if_pos h3]
          rw [ih]
          have : (p ≠ cell ∧ p ∉ s.mines ∧ 0 ≤ p.1 ∧ p.1 < s.height ∧
              0 ≤ p.2 ∧ p.2 < s.width ∧ p ∉ s.safes ∧ p ∉ s.moves_made) := by
            refine ⟨h1, h2, ?_⟩
            exact h3
          simp [this]
        · rw [List.foldl_cons]
          show (l.foldl (scanStep s cell) (scanStep s cell (acc, k) p)).1 = _
          rw [scanStep, if_neg h1, if_neg h2, if_neg h3]
          rw [ih]
          have : ¬(p ≠ cell ∧ p ∉ s.mines ∧ 0 ≤ p.1 ∧ p.1 < s.height ∧
              0 ≤ p.2 ∧ p.2 < s.width ∧ p ∉ s.safes ∧ p ∉ s.moves_made) := by
            intro hc
            exact h3 hc.2.2
          simp [this]

theorem scanStep_foldl_snd (s : MinesweeperAI) (cell : Cell) (l : List Cell)
    (acc : List Cell) (k : ℤ) :
    (l.foldl (scanStep s cell) (acc, k)).2 =
      k - (l.countP (fun p => decide (p ≠ cell ∧ p ∈ s.mines)) : ℤ) := by
  induction l generalizing acc k with
  | nil => simp
  | cons p l ih =>
    by_cases h1 : p = cell
    · subst h1
      rw [List.foldl_cons]
      show (l.foldl (scanStep s p) (scanStep s p (acc, k) p)).2 = _
      rw [scanStep, if_pos rfl, ih]
      simp
    · by_cases h2 : p ∈ s.mines
      · rw [List.foldl_cons]
        show (l.foldl (scanStep s cell) (scanStep s cell (acc, k) p)).2 = _
        rw [scanStep, if_neg h1, if_pos h2, ih]
        have : (p ≠ cell ∧ p ∈ s.mines) := ⟨h1, h2⟩
        rw [List.countP_cons_of_pos]
        · push_cast
          ring
        · simpa using this
      · rw [List.foldl_cons]
        show (l.foldl (scanStep s cell) (scanStep s cell (acc, k) p)).2 = _
        have hpc : ¬(p ≠ cell ∧ p ∈ s.mines) := fun hc => h2 hc.2
        rw [List.countP_cons_of_neg]
        swap
        · simpa using hpc
        by_cases h3 : 0 ≤ p.1 ∧ p.1 < s.height ∧ 0 ≤ p.2 ∧ p.2 < s.width ∧
            p ∉ s.safes ∧ p ∉ s.moves_made
        · rw [scanStep, if_neg h1, if_neg h2, if_pos h3, ih]
        · rw [scanStep, if_neg h1, if_neg h2, if_neg h3, ih]

theorem nbhdList_nodup (c : Cell) : (nbhdList c).Nodup := by
  simp [nbhdList, List.nodup_cons, Prod.ext_iff]
  omega

end MSAI

namespace MSAI

open MinesweeperAI

theorem obs_cells_eq (s : MinesweeperAI) (cell : Cell) (k : ℤ) :
    ((nbhdList cell).foldl
        (scanStep (mark_safe { s with moves_made := insert cell s.moves_made }
          cell) cell) ([], k)).1.toFinset = (specSentence s cell k).cells := by
  rw [scanStep_foldl_fst, List.nil_append, List.toFinset_filter]
  show _ = ((nbhdList cell).toFinset.erase cell).filter _
  rw [← Finset.filter_ne', Finset.filter_filter]
  refine Finset.filter_congr ?_
  intro x _
  simp only [mark_safe, decide_eq_true_eq, Finset.mem_insert, not_or]
  constructor
  · rintro ⟨hne, hm, hb1, hb2, hb3, hb4, hs, hmv⟩
    exact ⟨hne, hb1, hb2, hb3, hb4, hm, hs.2, hmv.2⟩
  · rintro ⟨hne, hb1, hb2, hb3, hb4, hm, hs, hmv⟩
    exact ⟨hne, hm, hb1, hb2, hb3, hb4, ⟨fun h => hne h, hs⟩, fun h => hne h, hmv⟩

theorem obs_count_eq (s : MinesweeperAI) (cell : Cell) (k : ℤ) :
    ((nbhdList cell).foldl
        (scanStep (mark_safe { s with moves_made := insert cell s.moves_made }
          cell) cell) ([], k)).2 = (specSentence s cell k).count := by
  rw [scanStep_foldl_snd]
  show k - ((nbhdList cell).countP
    (fun p => decide (p ≠ cell ∧ p ∈ s.mines)) : ℤ) = _
  have hnd : ((nbhdList cell).filter
      (fun p => decide (p ≠ cell ∧ p ∈ s.mines))).Nodup :=
    (nbhdList_nodup cell).filter _
  have hXY : ((nbhdList cell).filter
        (fun p => decide (p ≠ cell ∧ p ∈ s.mines))).length
      = (((nbhdList cell).toFinset.erase cell).filter
        (fun p => p ∈ s.mines)).card := by
    rw [← List.toFinset_card_of_nodup hnd, List.toFinset_filter,
        ← Finset.filter_ne', Finset.filter_filter]
    refine congrArg Finset.card (Finset.filter_congr ?_)
    intro x _
    simp
  rw [List.countP_eq_length_filter, hXY]
  rfl

/-- C6: every `add_knowledge(cell, count)` call appends, in its observation
phase, exactly one new sentence: its cell set is the set of in-bounds
neighbours of `cell` (the up-to-8 adjacent cells, excluding `cell` itself)
that are not in `mines`, `safes` or `moves_made`, and its count is the given
count minus the number of neighbours that are in `mines`; the sentence is
appended even when its cell set is empty.  (The pre-existing sentences are
only updated in place by `mark_safe cell`.) -/
theorem C6_observation_sentence (s : MinesweeperAI) (cell : Cell) (k : ℤ) :
    (observePhase s cell k).knowledge =
      s.knowledge.map (Sentence.mark_safe cell) ++ [specSentence s cell k] := by
  show s.knowledge.map (Sentence.mark_safe cell) ++
    [⟨((nbhdList cell).foldl (scanStep (mark_safe { s with
        moves_made := insert cell s.moves_made } cell) cell) ([], k)).1.toFinset,
      ((nbhdList cell).foldl (scanStep (mark_safe { s with
        moves_made := insert cell s.moves_made } cell) cell) ([], k)).2⟩] = _
  rw [obs_cells_eq, obs_count_eq]

end MSAI

namespace MSAI

open MinesweeperAI

/-! ### C7 amended: the sentence list never loses entries -/

theorem mark_safe_knowledge_length (s : MinesweeperAI) (c : Cell) :
    (s.mark_safe c).knowledge.length = s.knowledge.length := by
  simp [mark_safe]

theorem mark_mine_knowledge_length (s : MinesweeperAI) (c : Cell) :
    (s.mark_mine c).knowledge.length = s.knowledge.length := by
  simp [mark_mine]

theorem foldl_mark_safe_length (l : List Cell) (s : MinesweeperAI) :
    (l.foldl mark_safe s).knowledge.length = s.knowledge.length := by
  induction l generalizing s with
  | nil => rfl
  | cons c l ih => rw [List.foldl_cons, ih, mark_safe_knowledge_length]

theorem foldl_mark_mine_length (l : List Cell) (s : MinesweeperAI) :
    (l.foldl mark_mine s).knowledge.length = s.knowledge.length := by
  induction l generalizing s with
  | nil => rfl
  | cons c l ih => rw [List.foldl_cons, ih, mark_mine_knowledge_length]

theorem extractOne_length (s : MinesweeperAI) (i : ℕ) :
    (extractOne s i).knowledge.length = s.knowledge.length := by
  rw [extractOne]
  rcases h : s.knowledge[i]? with _ | st
  · rfl
  · rcases h2 : ((sortCells st.known_safes).foldl mark_safe s).knowledge[i]?
      with _ | st'
    · simp [h2, foldl_mark_safe_length]
    · simp [h2, foldl_mark_mine_length, foldl_mark_safe_length]

theorem foldl_extractOne_length (l : List ℕ) (s : MinesweeperAI) :
    (l.foldl extractOne s).knowledge.length = s.knowledge.length := by
  induction l generalizing s with
  | nil => rfl
  | cons i l ih => rw [List.foldl_cons, ih, extractOne_length]

theorem extractionPass_length (s : MinesweeperAI) :
    (extractionPass s).knowledge.length = s.knowledge.length :=
  foldl_extractOne_length _ s

theorem subsetLoop_length {n : ℕ} {K : List Sentence} {i j : ℕ} {made : Bool}
    {K2 : List Sentence} (h : subsetLoop n K i j made = some K2) :
    K.length ≤ K2.length := by
  induction n generalizing K i j made with
  | zero => simp [subsetLoop] at h
  | succ n ih =>
    rw [subsetLoop] at h
    by_cases h1 : i < K.length
    · rw [dif_pos h1] at h
      by_cases h2 : j < K.length
      · rw [dif_pos h2] at h
        by_cases h3 : (K.get ⟨j, h2⟩).cells ⊆ (K.get ⟨i, h1⟩).cells ∧
            (K.get ⟨i, h1⟩).count ≠ 0 ∧ (K.get ⟨j, h2⟩).count ≠ 0 ∧
            K.get ⟨i, h1⟩ ≠ K.get ⟨j, h2⟩
        · rw [if_pos h3] at h
          by_cases h4 : (⟨(K.get ⟨i, h1⟩).cells \ (K.get ⟨j, h2⟩).cells,
              (K.get ⟨i, h1⟩).count - (K.get ⟨j, h2⟩).count⟩ : Sentence) ∈ K
          · rw [if_pos h4] at h
            exact ih h
          · rw [if_neg h4] at h
            have := ih h
            simpa using Nat.le_of_succ_le (by simpa using this)
        · rw [if_neg h3] at h
          exact ih h
      · rw [dif_neg h2] at h
        exact ih h
    · rw [dif_neg h1] at h
      by_cases h5 : made
      · rw [if_pos h5] at h
        exact ih h
      · rw [if_neg h5] at h
        cases h
        exact le_rfl

/-- C7 amended: the list of stored sentences never shrinks across an
`add_knowledge` call: sentences are only appended (by the observation phase
and the subset rule) or mutated in place, never removed, so the number of
stored sentences after a completed call is at least the number before. -/
theorem C7_knowledge_length_mono {fuel : ℕ} {s s' : MinesweeperAI}
    {cell : Cell} {count : ℤ}
    (h : add_knowledge fuel s cell count = some s') :
    s.knowledge.length ≤ s'.knowledge.length := by
  rw [add_knowledge] at h
  rcases h2 : subsetLoop fuel
      (extractionPass (observePhase s cell count)).knowledge 0 0 false
    with _ | K
  · rw [h2] at h
    simp at h
  · rw [h2] at h
    have hs' := Option.some.inj h
    have hlen := subsetLoop_length h2
    rw [extractionPass_length] at hlen
    have hobs : (observePhase s cell count).knowledge.length =
        s.knowledge.length + 1 := by
      simp [observePhase, mark_safe]
    rw [hobs] at hlen
    rw [← hs']
    show s.knowledge.length ≤ K.length
    omega

/-- Witness for C7 at a concrete call: the 2x1 solver's first observation
grows the sentence list from 0 to 1. -/
theorem C7_witness :
    (init 2 1).knowledge.length ≤ c2s1.knowledge.length :=
  @C7_knowledge_length_mono 30 (init 2 1) c2s1 (0, 0) 1 (by decide)

end MSAI

namespace MSAI

open MinesweeperAI

/-! ### Monotonicity of `safes` and `mines` through marking folds -/

theorem sortCells_empty : sortCells ∅ = [] := rfl

theorem foldl_mark_safe_mines (l : List Cell) (s : MinesweeperAI) :
    (l.foldl mark_safe s).mines = s.mines := by
  induction l generalizing s with
  | nil => rfl
  | cons c l ih => rw [List.foldl_cons, ih]; rfl

theorem foldl_mark_mine_safes (l : List Cell) (s : MinesweeperAI) :
    (l.foldl mark_mine s).safes = s.safes := by
  induction l generalizing s with
  | nil => rfl
  | cons c l ih => rw [List.foldl_cons, ih]; rfl

theorem foldl_mark_safe_safes_mono (l : List Cell) (s : MinesweeperAI) :
    s.safes ⊆ (l.foldl mark_safe s).safes := by
  induction l generalizing s with
  | nil => exact Finset.Subset.refl _
  | cons c l ih =>
    rw [List.foldl_cons]
    exact (Finset.subset_insert c s.safes).trans (ih (s.mark_safe c))

theorem foldl_mark_mine_mines_mono (l : List Cell) (s : MinesweeperAI) :
    s.mines ⊆ (l.foldl mark_mine s).mines := by
  induction l generalizing s with
  | nil => exact Finset.Subset.refl _
  | cons c l ih =>
    rw [List.foldl_cons]
    exact (Finset.subset_insert c s.mines).trans (ih (s.mark_mine c))

theorem mem_foldl_mark_safe {l : List Cell} (s : MinesweeperAI) {c : Cell}
    (hc : c ∈ l) : c ∈ (l.foldl mark_safe s).safes := by
  induction l generalizing s with
  | nil => cases hc
  | cons d l ih =>
    rw [List.foldl_cons]
    rcases List.mem_cons.mp hc with rfl | hc
    · exact foldl_mark_safe_safes_mono l (s.mark_safe c)
        (Finset.mem_insert_self c s.safes)
    · exact ih _ hc

theorem mem_foldl_mark_mine {l : List Cell} (s : MinesweeperAI) {c : Cell}
    (hc : c ∈ l) : c ∈ (l.foldl mark_mine s).mines := by
  induction l generalizing s with
  | nil => cases hc
  | cons d l ih =>
    rw [List.foldl_cons]
    rcases List.mem_cons.mp hc with rfl | hc
    · exact foldl_mark_mine_mines_mono l (s.mark_mine c)
        (Finset.mem_insert_self c s.mines)
    · exact ih _ hc

theorem extractOne_safes_mono (s : MinesweeperAI) (i : ℕ) :
    s.safes ⊆ (extractOne s i).safes := by
  rw [extractOne]
  rcases h : s.knowledge[i]? with _ | st
  · exact Finset.Subset.refl _
  · rcases h2 : ((sortCells st.known_safes).foldl mark_safe s).knowledge[i]?
      with _ | st'
    · simp only [h2]
      exact foldl_mark_safe_safes_mono _ s
    · simp only [h2]
      rw [foldl_mark_mine_safes]
      exact foldl_mark_safe_safes_mono _ s

theorem extractOne_mines_mono (s : MinesweeperAI) (i : ℕ) :
    s.mines ⊆ (extractOne s i).mines := by
  rw [extractOne]
  rcases h : s.knowledge[i]? with _ | st
  · exact Finset.Subset.refl _
  · rcases h2 : ((sortCells st.known_safes).foldl mark_safe s).knowledge[i]?
      with _ | st'
    · simp only [h2]
      rw [foldl_mark_safe_mines]
    · simp only [h2]
      refine subset_trans ?_ (foldl_mark_mine_mines_mono _ _)
      rw [foldl_mark_safe_mines]

theorem foldl_extractOne_safes_mono (l : List ℕ) (s : MinesweeperAI) :
    s.safes ⊆ (l.foldl extractOne s).safes := by
  induction l generalizing s with
  | nil => exact Finset.Subset.refl _
  | cons i l ih =>
    rw [List.foldl_cons]
    exact (extractOne_safes_mono s i).trans (ih _)

theorem foldl_extractOne_mines_mono (l : List ℕ) (s : MinesweeperAI) :
    s.mines ⊆ (l.foldl extractOne s).mines := by
  induction l generalizing s with
  | nil => exact Finset.Subset.refl _
  | cons i l ih =>
    rw [List.foldl_cons]
    exact (extractOne_mines_mono s i).trans (ih _)

end MSAI

namespace MSAI

open MinesweeperAI

/-! ### C4 amended: soundness of extraction at examination time -/

theorem extractOne_marks_safes {s : MinesweeperAI} {i : ℕ} {st : Sentence}
    (h : s.knowledge[i]? = some st) (h0 : st.count = 0) :
    ∀ c ∈ st.cells, c ∈ (extractOne s i).safes := by
  intro c hc
  have hks : st.known_safes = st.cells := by
    rw [Sentence.known_safes, if_pos h0]
  have hmem : c ∈ sortCells st.known_safes := by
    rw [hks]
    exact mem_sortCells.mpr hc
  rw [extractOne]
  simp only [h]
  rcases h2 : ((sortCells st.known_safes).foldl mark_safe s).knowledge[i]?
    with _ | st'
  · simp only [h2]
    exact mem_foldl_mark_safe s hmem
  · simp only [h2]
    rw [foldl_mark_mine_safes]
    exact mem_foldl_mark_safe s hmem

theorem extractOne_marks_mines {s : MinesweeperAI} {i : ℕ} {st : Sentence}
    (h : s.knowledge[i]? = some st) (hcard : (st.cells.card : ℤ) = st.count)
    (hpos : 0 < st.count) :
    ∀ c ∈ st.cells, c ∈ (extractOne s i).mines := by
  intro c hc
  have hks : st.known_safes = ∅ := by
    rw [Sentence.known_safes, if_neg (by omega : ¬ st.count = 0)]
  have hkm : st.known_mines = st.cells := by
    rw [Sentence.known_mines, if_pos ⟨hcard, hpos⟩]
  rw [extractOne]
  simp only [h, hks, sortCells_empty, List.foldl_nil]
  rw [hkm]
  exact mem_foldl_mark_mine s (mem_sortCells.mpr hc)

/-- C4 amended: after the direct-extraction pass, every cell of every stored
sentence whose count was 0 at the moment the pass examined that sentence is
in `safes`, and every cell of every sentence whose count equalled its number
of cells and was positive at that moment is in `mines`.  (The original claim
fails because a sentence can be mutated into such a trivial form after its
examination, in which case the pass does not revisit it — see the
counterexample.)  Here `(List.range i).foldl extractOne s` is the state of
the pass just before it examines sentence `i`. -/
theorem C4_extraction_soundness_at_examination (s : MinesweeperAI) (i : ℕ)
    (st : Sentence)
    (h : ((List.range i).foldl extractOne s).knowledge[i]? = some st) :
    (st.count = 0 → ∀ c ∈ st.cells, c ∈ (extractionPass s).safes) ∧
    ((st.cells.card : ℤ) = st.count ∧ 0 < st.count →
      ∀ c ∈ st.cells, c ∈ (extractionPass s).mines) := by
  have hi : i < s.knowledge.length := by
    by_contra hge
    rw [List.getElem?_eq_none] at h
    · exact Option.noConfusion h
    · rw [foldl_extractOne_length]
      omega
  obtain ⟨m, hm⟩ : ∃ m, s.knowledge.length = (i + 1) + m :=
    ⟨s.knowledge.length - (i + 1), by omega⟩
  have hsplit : extractionPass s =
      ((List.range m).map ((i + 1) + ·)).foldl extractOne
        (extractOne ((List.range i).foldl extractOne s) i) := by
    rw [extractionPass, hm, List.range_add, List.foldl_append, List.range_succ,
      List.foldl_append]
    rfl
  constructor
  · intro h0 c hc
    rw [hsplit]
    exact foldl_extractOne_safes_mono _ _ (extractOne_marks_safes h h0 c hc)
  · rintro ⟨hcard, hpos⟩ c hc
    rw [hsplit]
    exact foldl_extractOne_mines_mono _ _ (extractOne_marks_mines h hcard hpos c hc)

/-- Witness for the amended C4 at a concrete state: a stored sentence
`({(0,0)}, 0)` examined by the pass gets its cell into `safes`. -/
theorem C4_witness :
    ((0, 0) : Cell) ∈
      (extractionPass ⟨1, 1, ∅, ∅, ∅, [⟨{(0, 0)}, 0⟩]⟩).safes :=
  (C4_extraction_soundness_at_examination ⟨1, 1, ∅, ∅, ∅, [⟨{(0, 0)}, 0⟩]⟩ 0
    ⟨{(0, 0)}, 0⟩ (by decide)).1 rfl (0, 0) (by decide)

end MSAI

namespace MSAI

open MinesweeperAI

/-! ### Reachable solver states -/

/-- States reachable from a freshly constructed solver by completed
`add_knowledge` calls whose arguments satisfy `P` at call time.  The two
move-choosing operations do not mutate the solver state (`make_safe_move` is
a pure read, and `make_random_move` only reads `moves_made` and `mines`), so
they do not contribute transitions. -/
inductive ReachableWith (P : MinesweeperAI → Cell → ℤ → Prop) :
    MinesweeperAI → Prop
  | init (height width : ℤ) : ReachableWith P (MinesweeperAI.init height width)
  | step {s s' : MinesweeperAI} {cell : Cell} {count : ℤ} (fuel : ℕ)
      (hs : ReachableWith P s) (hP : P s cell count)
      (hcall : add_knowledge fuel s cell count = some s') : ReachableWith P s'

/-! ### Dimension preservation -/

theorem foldl_mark_safe_dims (l : List Cell) (s : MinesweeperAI) :
    (l.foldl mark_safe s).height = s.height ∧
    (l.foldl mark_safe s).width = s.width := by
  induction l generalizing s with
  | nil => exact ⟨rfl, rfl⟩
  | cons c l ih => exact ih (s.mark_safe c)

theorem foldl_mark_mine_dims (l : List Cell) (s : MinesweeperAI) :
    (l.foldl mark_mine s).height = s.height ∧
    (l.foldl mark_mine s).width = s.width := by
  induction l generalizing s with
  | nil => exact ⟨rfl, rfl⟩
  | cons c l ih => exact ih (s.mark_mine c)

theorem extractOne_dims (s : MinesweeperAI) (i : ℕ) :
    (extractOne s i).height = s.height ∧ (extractOne s i).width = s.width := by
  rw [extractOne]
  rcases h : s.knowledge[i]? with _ | st
  · exact ⟨rfl, rfl⟩
  · rcases h2 : ((sortCells st.known_safes).foldl mark_safe s).knowledge[i]?
      with _ | st'
    · simp only [h2]
      exact foldl_mark_safe_dims _ s
    · simp only [h2]
      obtain ⟨hh, hw⟩ := foldl_mark_safe_dims (sortCells st.known_safes) s
      obtain ⟨hh', hw'⟩ := foldl_mark_mine_dims (sortCells st'.known_mines)
        ((sortCells st.known_safes).foldl mark_safe s)
      exact ⟨hh'.trans hh, hw'.trans hw⟩

theorem foldl_extractOne_dims (l : List ℕ) (s : MinesweeperAI) :
    (l.foldl extractOne s).height = s.height ∧
    (l.foldl extractOne s).width = s.width := by
  induction l generalizing s with
  | nil => exact ⟨rfl, rfl⟩
  | cons i l ih =>
    rw [List.foldl_cons]
    obtain ⟨hh, hw⟩ := ih (extractOne s i)
    obtain ⟨hh', hw'⟩ := extractOne_dims s i
    exact ⟨hh.trans hh', hw.trans hw'⟩

theorem add_knowledge_dims {fuel : ℕ} {s s' : MinesweeperAI} {cell : Cell}
    {count : ℤ} (h : add_knowledge fuel s cell count = some s') :
    s'.height = s.height ∧ s'.width = s.width := by
  rw [add_knowledge] at h
  rcases h2 : subsetLoop fuel
      (extractionPass (observePhase s cell count)).knowledge 0 0 false
    with _ | K
  · rw [h2] at h
    simp at h
  · rw [h2] at h
    have hs' := Option.some.inj h
    rw [← hs']
    exact foldl_extractOne_dims _ _

/-! ### C10: cells stored in sentences are always in bounds -/

/-- All cells of all sentences of `K` lie in the `h x w` grid. -/
def cellsWithin (h w : ℤ) (K : List Sentence) : Prop :=
  ∀ st ∈ K, ∀ p ∈ st.cells, 0 ≤ p.1 ∧ p.1 < h ∧ 0 ≤ p.2 ∧ p.2 < w

theorem mem_sentence_mark_safe {c p : Cell} {st : Sentence}
    (hp : p ∈ (Sentence.mark_safe c st).cells) : p ∈ st.cells ∧ p ≠ c := by
  rw [Sentence.mark_safe] at hp
  by_cases h : c ∈ st.cells
  · rw [if_pos h] at hp
    have := Finset.mem_erase.mp hp
    exact ⟨this.2, this.1⟩
  · rw [if_neg h] at hp
    exact ⟨hp, fun he => h (he ▸ hp)⟩

theorem mem_sentence_mark_mine {c p : Cell} {st : Sentence}
    (hp : p ∈ (Sentence.mark_mine c st).cells) : p ∈ st.cells ∧ p ≠ c := by
  rw [Sentence.mark_mine] at hp
  by_cases h : c ∈ st.cells
  · rw [if_pos h] at hp
    have := Finset.mem_erase.mp hp
    exact ⟨this.2, this.1⟩
  · rw [if_neg h] at hp
    exact ⟨hp, fun he => h (he ▸ hp)⟩

theorem mark_safe_cellsWithin {h w : ℤ} {s : MinesweeperAI} {c : Cell}
    (hK : cellsWithin h w s.knowledge) :
    cellsWithin h w (s.mark_safe c).knowledge := by
  intro st hst p hp
  rw [mark_safe] at hst
  obtain ⟨st0, hst0, rfl⟩ := List.mem_map.mp hst
  exact hK st0 hst0 p (mem_sentence_mark_safe hp).1

theorem mark_mine_cellsWithin {h w : ℤ} {s : MinesweeperAI} {c : Cell}
    (hK : cellsWithin h w s.knowledge) :
    cellsWithin h w (s.mark_mine c).knowledge := by
  intro st hst p hp
  rw [mark_mine] at hst
  obtain ⟨st0, hst0, rfl⟩ := List.mem_map.mp hst
  exact hK st0 hst0 p (mem_sentence_mark_mine hp).1

theorem foldl_mark_safe_cellsWithin {h w : ℤ} {s : MinesweeperAI}
    (l : List Cell) (hK : cellsWithin h w s.knowledge) :
    cellsWithin h w (l.foldl mark_safe s).knowledge := by
  induction l generalizing s with
  | nil => exact hK
  | cons c l ih => exact ih (mark_safe_cellsWithin hK)

theorem foldl_mark_mine_cellsWithin {h w : ℤ} {s : MinesweeperAI}
    (l : List Cell) (hK : cellsWithin h w s.knowledge) :
    cellsWithin h w (l.foldl mark_mine s).knowledge := by
  induction l generalizing s with
  | nil => exact hK
  | cons c l ih => exact ih (mark_mine_cellsWithin hK)

theorem extractOne_cellsWithin {h w : ℤ} {s : MinesweeperAI} (i : ℕ)
    (hK : cellsWithin h w s.knowledge) :
    cellsWithin h w (extractOne s i).knowledge := by
  rw [extractOne]
  rcases hh : s.knowledge[i]? with _ | st
  · exact hK
  · rcases h2 : ((sortCells st.known_safes).foldl mark_safe s).knowledge[i]?
      with _ | st'
    · simp only [h2]
      exact foldl_mark_safe_cellsWithin _ hK
    · simp only [h2]
      exact foldl_mark_mine_cellsWithin _ (foldl_mark_safe_cellsWithin _ hK)

theorem foldl_extractOne_cellsWithin {h w : ℤ} {s : MinesweeperAI}
    (l : List ℕ) (hK : cellsWithin h w s.knowledge) :
    cellsWithin h w (l.foldl extractOne s).knowledge := by
  induction l generalizing s with
  | nil => exact hK
  | cons i l ih => exact ih (extractOne_cellsWithin i hK)

theorem observePhase_cellsWithin {s : MinesweeperAI} {cell : Cell} {count : ℤ}
    (hK : cellsWithin s.height s.width s.knowledge) :
    cellsWithin s.height s.width (observePhase s cell count).knowledge := by
  intro st hst p hp
  rw [show (observePhase s cell count).knowledge =
      s.knowledge.map (Sentence.mark_safe cell) ++
      [⟨((nbhdList cell).foldl (scanStep (mark_safe { s with
          moves_made := insert cell s.moves_made } cell) cell) ([], count)).1.toFinset,
        ((nbhdList cell).foldl (scanStep (mark_safe { s with
          moves_made := insert cell s.moves_made } cell) cell) ([], count)).2⟩]
    from rfl] at hst
  rcases List.mem_append.mp hst with hst | hst
  · obtain ⟨st0, hst0, rfl⟩ := List.mem_map.mp hst
    exact hK st0 hst0 p (mem_sentence_mark_safe hp).1
  · rcases List.mem_singleton.mp hst with rfl
    rw [scanStep_foldl_fst, List.nil_append] at hp
    have hp2 := List.mem_toFinset.mp hp
    have := List.of_mem_filter hp2
    simp only [decide_eq_true_eq] at this
    exact ⟨this.2.2.1, this.2.2.2.1, this.2.2.2.2.1, this.2.2.2.2.2.1⟩

/-- The subset-elimination loop preserves any sentence property `Q` that is
inherited by the derived difference sentences. -/
theorem subsetLoop_preserves {Q : Sentence → Prop}
    (hQ : ∀ A B : Sentence, Q A → Q ⟨A.cells \ B.cells, A.count - B.count⟩)
    {n : ℕ} {K : List Sentence} {i j : ℕ} {made : Bool} {K2 : List Sentence}
    (h : subsetLoop n K i j made = some K2) (hK : ∀ st ∈ K, Q st) :
    ∀ st ∈ K2, Q st := by
  induction n generalizing K i j made with
  | zero => simp [subsetLoop] at h
  | succ n ih =>
    rw [subsetLoop] at h
    by_cases h1 : i < K.length
    · rw [dif_pos h1] at h
      by_cases h2 : j < K.length
      · rw [dif_pos h2] at h
        by_cases h3 : (K.get ⟨j, h2⟩).cells ⊆ (K.get ⟨i, h1⟩).cells ∧
            (K.get ⟨i, h1⟩).count ≠ 0 ∧ (K.get ⟨j, h2⟩).count ≠ 0 ∧
            K.get ⟨i, h1⟩ ≠ K.get ⟨j, h2⟩
        · rw [if_pos h3] at h
          by_cases h4 : (⟨(K.get ⟨i, h1⟩).cells \ (K.get ⟨j, h2⟩).cells,
              (K.get ⟨i, h1⟩).count - (K.get ⟨j, h2⟩).count⟩ : Sentence) ∈ K
          · rw [if_pos h4] at h
            exact ih h hK
          · rw [if_neg h4] at h
            refine ih h ?_
            intro st hst
            rcases List.mem_append.mp hst with hst | hst
            · exact hK st hst
            · rcases List.mem_singleton.mp hst with rfl
              exact hQ _ _ (hK _ (K.get_mem _ _))
        · rw [if_neg h3] at h
          exact ih h hK
      · rw [dif_neg h2] at h
        exact ih h hK
    · rw [dif_neg h1] at h
      by_cases h5 : made
      · rw [if_pos h5] at h
        exact ih h hK
      · rw [if_neg h5] at h
        cases h
        exact hK

theorem add_knowledge_cellsWithin {fuel : ℕ} {s s' : MinesweeperAI}
    {cell : Cell} {count : ℤ}
    (h : add_knowledge fuel s cell count = some s')
    (hK : cellsWithin s.height s.width s.knowledge) :
    cellsWithin s.height s.width s'.knowledge := by
  rw [add_knowledge] at h
  rcases h2 : subsetLoop fuel
      (extractionPass (observePhase s cell count)).knowledge 0 0 false
    with _ | K
  · rw [h2] at h
    simp at h
  · rw [h2] at h
    have hs' := Option.some.inj h
    rw [← hs']
    show cellsWithin s.height s.width K
    have hext : cellsWithin s.height s.width
        (extractionPass (observePhase s cell count)).knowledge :=
      foldl_extractOne_cellsWithin _ (observePhase_cellsWithin hK)
    refine subsetLoop_preserves ?_ h2 hext
    intro A B hA p hp
    exact hA p (Finset.mem_sdiff.mp hp).1

/-- C10: in every state reachable from a fresh solver by any sequence of
completed `add_knowledge` calls — with no restriction on the observed cells
or counts, so in particular even when out-of-bounds cells are observed —
every cell of every stored sentence lies within the grid. -/
theorem C10_statement_cells_in_bounds (s : MinesweeperAI)
    (hr : ReachableWith (fun _ _ _ => True) s) :
    ∀ st ∈ s.knowledge, ∀ p ∈ st.cells,
      0 ≤ p.1 ∧ p.1 < s.height ∧ 0 ≤ p.2 ∧ p.2 < s.width := by
  induction hr with
  | init h w =>
    intro st hst
    cases hst
  | step fuel hs hP hcall ih =>
    obtain ⟨hh, hw⟩ := add_knowledge_dims hcall
    rw [hh, hw]
    exact add_knowledge_cellsWithin hcall ih

/-- Witness for C10 at a concrete reachable state: in the 1x5 solver state
`mid15`, the cell (0,1) of the stored sentence `({(0,1),(0,3)}, 1)` is in
bounds. -/
theorem C10_witness :
    0 ≤ (((0, 1) : Cell)).1 ∧ (((0, 1) : Cell)).1 < mid15.height ∧
    0 ≤ (((0, 1) : Cell)).2 ∧ (((0, 1) : Cell)).2 < mid15.width :=
  C10_statement_cells_in_bounds mid15
    (@ReachableWith.step (fun _ _ _ => True) (init 1 5) mid15 (0, 2) 1 50
      (ReachableWith.init 1 5) trivial (by decide))
    ⟨{(0, 1), (0, 3)}, 1⟩ (by decide) (0, 1) (by decide)

end MSAI

namespace MSAI

open MinesweeperAI

/-! ### C2 amended: disjointness of `mines` and `safes` -/

/-- The disjointness invariant together with the auxiliary facts that make it
inductive: no stored sentence mentions an already-resolved cell. -/
def InvDisjoint (s : MinesweeperAI) : Prop :=
  s.mines ∩ s.safes = ∅ ∧
  ∀ st ∈ s.knowledge, ∀ p ∈ st.cells, p ∉ s.mines ∧ p ∉ s.safes

theorem mark_safe_inv {s : MinesweeperAI} {c : Cell} (hc : c ∉ s.mines)
    (hI : InvDisjoint s) : InvDisjoint (s.mark_safe c) := by
  obtain ⟨hd, hK⟩ := hI
  constructor
  · show s.mines ∩ insert c s.safes = ∅
    rw [Finset.eq_empty_iff_forall_not_mem]
    intro x hx
    rw [Finset.mem_inter, Finset.mem_insert] at hx
    rcases hx.2 with rfl | hxs
    · exact hc hx.1
    · rw [Finset.eq_empty_iff_forall_not_mem] at hd
      exact hd x (Finset.mem_inter.mpr ⟨hx.1, hxs⟩)
  · intro st hst p hp
    rw [mark_safe] at hst
    obtain ⟨st0, hst0, rfl⟩ := List.mem_map.mp hst
    obtain ⟨hp0, hpc⟩ := mem_sentence_mark_safe hp
    obtain ⟨hm, hs⟩ := hK st0 hst0 p hp0
    refine ⟨hm, ?_⟩
    show p ∉ insert c s.safes
    rw [Finset.mem_insert]
    rintro (rfl | hps)
    · exact hpc rfl
    · exact hs hps

theorem mark_mine_inv {s : MinesweeperAI} {c : Cell} (hc : c ∉ s.safes)
    (hI : InvDisjoint s) : InvDisjoint (s.mark_mine c) := by
  obtain ⟨hd, hK⟩ := hI
  constructor
  · show insert c s.mines ∩ s.safes = ∅
    rw [Finset.eq_empty_iff_forall_not_mem]
    intro x hx
    rw [Finset.mem_inter, Finset.mem_insert] at hx
    rcases hx.1 with rfl | hxm
    · exact hc hx.2
    · rw [Finset.eq_empty_iff_forall_not_mem] at hd
      exact hd x (Finset.mem_inter.mpr ⟨hxm, hx.2⟩)
  · intro st hst p hp
    rw [mark_mine] at hst
    obtain ⟨st0, hst0, rfl⟩ := List.mem_map.mp hst
    obtain ⟨hp0, hpc⟩ := mem_sentence_mark_mine hp
    obtain ⟨hm, hs⟩ := hK st0 hst0 p hp0
    refine ⟨?_, hs⟩
    show p ∉ insert c s.mines
    rw [Finset.mem_insert]
    rintro (rfl | hpm)
    · exact hpc rfl
    · exact hm hpm

theorem foldl_mark_safe_inv {l : List Cell} {s : MinesweeperAI}
    (hl : ∀ c ∈ l, c ∉ s.mines) (hI : InvDisjoint s) :
    InvDisjoint (l.foldl mark_safe s) := by
  induction l generalizing s with
  | nil => exact hI
  | cons c l ih =>
    rw [List.foldl_cons]
    refine ih ?_ (mark_safe_inv (hl c (List.mem_cons_self c l)) hI)
    intro d hd
    show d ∉ s.mines
    exact hl d (List.mem_cons_of_mem c hd)

theorem foldl_mark_mine_inv {l : List Cell} {s : MinesweeperAI}
    (hl : ∀ c ∈ l, c ∉ s.safes) (hI : InvDisjoint s) :
    InvDisjoint (l.foldl mark_mine s) := by
  induction l generalizing s with
  | nil => exact hI
  | cons c l ih =>
    rw [List.foldl_cons]
    refine ih ?_ (mark_mine_inv (hl c (List.mem_cons_self c l)) hI)
    intro d hd
    show d ∉ s.safes
    exact hl d (List.mem_cons_of_mem c hd)

theorem extractOne_inv {s : MinesweeperAI} (i : ℕ) (hI : InvDisjoint s) :
    InvDisjoint (extractOne s i) := by
  rw [extractOne]
  rcases hh : s.knowledge[i]? with _ | st
  · exact hI
  · have hstmem : st ∈ s.knowledge := by
      have := List.getElem?_eq_some_iff.mp hh
      obtain ⟨hlt, hget⟩ := this
      exact hget ▸ List.getElem_mem hlt
    have hsafefold : InvDisjoint ((sortCells st.known_safes).foldl mark_safe s) := by
      refine foldl_mark_safe_inv ?_ hI
      intro c hc
      have hc2 : c ∈ st.known_safes := mem_sortCells.mp hc
      have hc3 : c ∈ st.cells := by
        rw [Sentence.known_safes] at hc2
        by_cases h0 : st.count = 0
        · rw [if_pos h0] at hc2
          exact hc2
        · rw [if_neg h0] at hc2
          cases hc2
      exact (hI.2 st hstmem c hc3).1
    rcases h2 : ((sortCells st.known_safes).foldl mark_safe s).knowledge[i]?
      with _ | st'
    · simp only [h2]
      exact hsafefold
    · simp only [h2]
      have hstmem' : st' ∈ ((sortCells st.known_safes).foldl mark_safe s).knowledge := by
        have := List.getElem?_eq_some_iff.mp h2
        obtain ⟨hlt, hget⟩ := this
        exact hget ▸ List.getElem_mem hlt
      refine foldl_mark_mine_inv ?_ hsafefold
      intro c hc
      have hc2 : c ∈ st'.known_mines := mem_sortCells.mp hc
      have hc3 : c ∈ st'.cells := by
        rw [Sentence.known_mines] at hc2
        by_cases h0 : (st'.cells.card : ℤ) = st'.count ∧ 0 < st'.count
        · rw [if_pos h0] at hc2
          exact hc2
        · rw [if_neg h0] at hc2
          cases hc2
      exact (hsafefold.2 st' hstmem' c hc3).2

theorem foldl_extractOne_inv {l : List ℕ} {s : MinesweeperAI}
    (hI : InvDisjoint s) : InvDisjoint (l.foldl extractOne s) := by
  induction l generalizing s with
  | nil => exact hI
  | cons i l ih => exact ih (extractOne_inv i hI)

theorem observePhase_inv {s : MinesweeperAI} {cell : Cell} {count : ℤ}
    (hc : cell ∉ s.mines) (hI : InvDisjoint s) :
    InvDisjoint (observePhase s cell count) := by
  have hI2 : InvDisjoint
      ((({ s with moves_made := insert cell s.moves_made } :
        MinesweeperAI)).mark_safe cell) :=
    mark_safe_inv hc hI
  constructor
  · exact hI2.1
  · intro st hst p hp
    rw [show (observePhase s cell count).knowledge =
        (({ s with moves_made := insert cell s.moves_made } :
          MinesweeperAI).mark_safe cell).knowledge ++
        [⟨((nbhdList cell).foldl (scanStep (mark_safe { s with
            moves_made := insert cell s.moves_made } cell) cell)
            ([], count)).1.toFinset,
          ((nbhdList cell).foldl (scanStep (mark_safe { s with
            moves_made := insert cell s.moves_made } cell) cell)
            ([], count)).2⟩]
      from rfl] at hst
    rcases List.mem_append.mp hst with hst | hst
    · exact hI2.2 st hst p hp
    · rcases List.mem_singleton.mp hst with rfl
      rw [scanStep_foldl_fst, List.nil_append] at hp
      have hp2 := List.of_mem_filter (List.mem_toFinset.mp hp)
      simp only [decide_eq_true_eq] at hp2
      exact ⟨hp2.2.1, hp2.2.2.2.2.2.2.1⟩

theorem add_knowledge_inv {fuel : ℕ} {s s' : MinesweeperAI} {cell : Cell}
    {count : ℤ} (hc : cell ∉ s.mines)
    (h : add_knowledge fuel s cell count = some s') (hI : InvDisjoint s) :
    InvDisjoint s' := by
  rw [add_knowledge] at h
  rcases h2 : subsetLoop fuel
      (extractionPass (observePhase s cell count)).knowledge 0 0 false
    with _ | K
  · rw [h2] at h
    simp at h
  · rw [h2] at h
    have hs' := Option.some.inj h
    have hext : InvDisjoint (extractionPass (observePhase s cell count)) :=
      foldl_extractOne_inv (observePhase_inv hc hI)
    rw [← hs']
    refine ⟨hext.1, ?_⟩
    show ∀ st ∈ K, ∀ p ∈ st.cells,
      p ∉ (extractionPass (observePhase s cell count)).mines ∧
      p ∉ (extractionPass (observePhase s cell count)).safes
    refine subsetLoop_preserves ?_ h2 hext.2
    intro A B hA p hp
    exact hA p (Finset.mem_sdiff.mp hp).1

theorem reachable_invDisjoint {s : MinesweeperAI}
    (hr : ReachableWith (fun t c k => (0 ≤ c.1 ∧ c.1 < t.height ∧ 0 ≤ c.2 ∧
      c.2 < t.width) ∧ 0 ≤ k ∧ c ∉ t.mines) s) : InvDisjoint s := by
  induction hr with
  | init h w =>
    constructor
    · exact Finset.empty_inter _
    · intro st hst
      cases hst
  | step fuel hs hP hcall ih => exact add_knowledge_inv hP.2.2 hcall ih

/-- C2 amended: in every state reachable from a fresh solver by completed
`add_knowledge` calls with in-bounds cells, non-negative counts AND observed
cells not already known to be mines, `mines` and `safes` are disjoint.  (The
extra condition is forced by the counterexample: observing a cell already in
`mines` puts it into `safes` while it stays in `mines`.) -/
theorem C2_disjoint_of_no_known_mine_observed (s : MinesweeperAI)
    (hr : ReachableWith (fun t c k => (0 ≤ c.1 ∧ c.1 < t.height ∧ 0 ≤ c.2 ∧
      c.2 < t.width) ∧ 0 ≤ k ∧ c ∉ t.mines) s) :
    s.mines ∩ s.safes = ∅ :=
  (reachable_invDisjoint hr).1

/-- Witness for the amended C2 at the concrete reachable state `c2s1`
(reached by one observation satisfying all three side conditions). -/
theorem C2_witness : c2s1.mines ∩ c2s1.safes = ∅ :=
  C2_disjoint_of_no_known_mine_observed c2s1
    (@ReachableWith.step _ (init 2 1) c2s1 (0, 0) 1 30
      (ReachableWith.init 2 1) (by decide) (by decide))

end MSAI

namespace MSAI

open MinesweeperAI

/-! ### C1: the subset-elimination loop can run forever

On a 1x1 grid, observing cell (0,0) twice with the different counts 5 and 3
puts two empty-cell sentences with distinct nonzero counts into the
knowledge base.  The subset rule applies to any two such sentences (the
empty set is a subset of the empty set) and derives a fresh empty-cell
sentence whose count is the difference, so every full pass of the
`while True` loop appends at least one new sentence (a finite set of
integers with two distinct elements, containing some positive and some
negative one, is never closed under differences: the difference of its
maximum and its minimum exceeds the maximum).  The loop never reaches a pass
that adds nothing, hence never exits. -/

theorem Sentence.eq_of_parts {A B : Sentence} (h1 : A.cells = B.cells)
    (h2 : A.count = B.count) : A = B := by
  cases A
  cases B
  simp_all

/-- A finite duplicate-free list of at least two integers is never closed
under differences of distinct elements. -/
theorem exists_new_diff (L : List ℤ) (hnd : L.Nodup) (hlen : 2 ≤ L.length) :
    ∃ a ∈ L, ∃ b ∈ L, a ≠ b ∧ a - b ∉ L := by
  by_contra hcon
  push_neg at hcon
  rcases L with _ | ⟨x, _ | ⟨y, rest⟩⟩
  · simp at hlen
  · simp at hlen
  · have hxy : x ≠ y := by
      intro he
      exact (List.nodup_cons.mp hnd).1 (he ▸ List.mem_cons_self y rest)
    have hx : x ∈ x :: y :: rest := List.mem_cons_self _ _
    have hy : y ∈ x :: y :: rest := List.mem_cons_of_mem _ (List.mem_cons_self _ _)
    have hd : x - y ∈ x :: y :: rest := hcon x hx y hy hxy
    have he : y - x ∈ x :: y :: rest := hcon y hy x hx hxy.symm
    have hne : ((x :: y :: rest).toFinset : Finset ℤ).Nonempty :=
      ⟨x, List.mem_toFinset.mpr hx⟩
    set M := ((x :: y :: rest).toFinset).max' hne with hM
    set m := ((x :: y :: rest).toFinset).min' hne with hm
    have hMmem : M ∈ x :: y :: rest :=
      List.mem_toFinset.mp (Finset.max'_mem _ hne)
    have hmmem : m ∈ x :: y :: rest :=
      List.mem_toFinset.mp (Finset.min'_mem _ hne)
    have hMge : ∀ z ∈ x :: y :: rest, z ≤ M := fun z hz =>
      Finset.le_max' _ z (List.mem_toFinset.mpr hz)
    have hmle : ∀ z ∈ x :: y :: rest, m ≤ z := fun z hz =>
      Finset.min'_le _ z (List.mem_toFinset.mpr hz)
    have h1 := hMge _ hd
    have h2 := hMge _ he
    have h3 := hmle _ hd
    have h4 := hmle _ he
    have hMm : M - m ∈ x :: y :: rest :=
      hcon M hMmem m hmmem (by omega)
    have h5 := hMge _ hMm
    omega

/-- The index pair `(p, q)` produces a new sentence in `K`: the guards of the
subset rule hold and the derived difference sentence is not yet present. -/
def producesAt (K : List Sentence) (p q : ℕ) : Prop :=
  ∃ hp : p < K.length, ∃ hq : q < K.length,
    ((K.get ⟨q, hq⟩).cells ⊆ (K.get ⟨p, hp⟩).cells ∧
     (K.get ⟨p, hp⟩).count ≠ 0 ∧ (K.get ⟨q, hq⟩).count ≠ 0 ∧
     K.get ⟨p, hp⟩ ≠ K.get ⟨q, hq⟩) ∧
    (⟨(K.get ⟨p, hp⟩).cells \ (K.get ⟨q, hq⟩).cells,
      (K.get ⟨p, hp⟩).count - (K.get ⟨q, hq⟩).count⟩ : Sentence) ∉ K

theorem exists_producesAt (K : List Sentence)
    (hempty : ∀ st ∈ K, st.cells = ∅) (hnd : K.Nodup)
    (hnz : ∀ st ∈ K, st.count ≠ 0) (hlen : 2 ≤ K.length) :
    ∃ p q : ℕ, producesAt K p q := by
  have hndL : (K.map Sentence.count).Nodup := by
    refine List.Nodup.map_on ?_ hnd
    intro x hx y hy hxy
    exact Sentence.eq_of_parts ((hempty x hx).trans (hempty y hy).symm) hxy
  have hlenL : 2 ≤ (K.map Sentence.count).length := by
    rw [List.length_map]
    exact hlen
  obtain ⟨a, ha, b, hb, hab, hdiff⟩ := exists_new_diff _ hndL hlenL
  obtain ⟨A, hA, rfl⟩ := List.mem_map.mp ha
  obtain ⟨B, hB, rfl⟩ := List.mem_map.mp hb
  obtain ⟨p, hgetA⟩ := List.mem_iff_get.mp hA
  obtain ⟨q, hgetB⟩ := List.mem_iff_get.mp hB
  refine ⟨p.1, q.1, p.2, q.2, ⟨?_, ?_, ?_, ?_⟩, ?_⟩
  · show (K.get q).cells ⊆ (K.get p).cells
    rw [hgetA, hgetB, hempty A hA, hempty B hB]
  · show (K.get p).count ≠ 0
    rw [hgetA]
    exact hnz A hA
  · show (K.get q).count ≠ 0
    rw [hgetB]
    exact hnz B hB
  · show K.get p ≠ K.get q
    rw [hgetA, hgetB]
    intro h
    exact hab (congrArg Sentence.count h)
  · show (⟨(K.get p).cells \ (K.get q).cells,
      (K.get p).count - (K.get q).count⟩ : Sentence) ∉ K
    rw [hgetA, hgetB]
    intro hC
    exact hdiff (List.mem_map_of_mem Sentence.count hC)

/-- Invariant of the diverging subset-loop configurations. -/
def DivergingCfg (K : List Sentence) (i j : ℕ) (made : Bool) : Prop :=
  (∀ st ∈ K, st.cells = ∅) ∧ K.Nodup ∧ (∀ st ∈ K, st.count ≠ 0) ∧
  2 ≤ K.length ∧
  (made = true ∨ ∃ p q : ℕ, (i < p ∨ (i = p ∧ j ≤ q)) ∧ producesAt K p q)

theorem diverging_none : ∀ (n : ℕ) (K : List Sentence) (i j : ℕ)
    (made : Bool), DivergingCfg K i j made → subsetLoop n K i j made = none := by
  intro n
  induction n with
  | zero =>
    intro K i j made _
    rfl
  | succ n ih =>
    intro K i j made hD
    obtain ⟨hempty, hnd, hnz, hlen, hlast⟩ := hD
    rw [subsetLoop]
    by_cases h1 : i < K.length
    · rw [dif_pos h1]
      by_cases h2 : j < K.length
      · rw [dif_pos h2]
        by_cases h3 : (K.get ⟨j, h2⟩).cells ⊆ (K.get ⟨i, h1⟩).cells ∧
            (K.get ⟨i, h1⟩).count ≠ 0 ∧ (K.get ⟨j, h2⟩).count ≠ 0 ∧
            K.get ⟨i, h1⟩ ≠ K.get ⟨j, h2⟩
        · rw [if_pos h3]
          by_cases h4 : (⟨(K.get ⟨i, h1⟩).cells \ (K.get ⟨j, h2⟩).cells,
              (K.get ⟨i, h1⟩).count - (K.get ⟨j, h2⟩).count⟩ : Sentence) ∈ K
          · rw [if_pos h4]
            refine ih K i (j + 1) made ⟨hempty, hnd, hnz, hlen, ?_⟩
            rcases hlast with hm | ⟨p, q, hpos, hprod⟩
            · exact Or.inl hm
            · refine Or.inr ⟨p, q, ?_, hprod⟩
              by_cases hpq : p = i ∧ q = j
              · exfalso
                obtain ⟨rfl, rfl⟩ := hpq
                obtain ⟨hp, hq, hg, hnm⟩ := hprod
                exact hnm h4
              · omega
          · rw [if_neg h4]
            refine ih (K ++ [⟨(K.get ⟨i, h1⟩).cells \ (K.get ⟨j, h2⟩).cells,
              (K.get ⟨i, h1⟩).count - (K.get ⟨j, h2⟩).count⟩]) i (j + 1) true
              ⟨?_, ?_, ?_, ?_, Or.inl rfl⟩
            · intro st hst
              rcases List.mem_append.mp hst with hst | hst
              · exact hempty st hst
              · rcases List.mem_singleton.mp hst with rfl
                show (K.get ⟨i, h1⟩).cells \ (K.get ⟨j, h2⟩).cells = ∅
                rw [hempty _ (K.get_mem _ _), Finset.empty_sdiff]
            · rw [List.nodup_append]
              refine ⟨hnd, List.nodup_singleton _, ?_⟩
              intro a haK haC
              rcases List.mem_singleton.mp haC with rfl
              exact h4 haK
            · intro st hst
              rcases List.mem_append.mp hst with hst | hst
              · exact hnz st hst
              · rcases List.mem_singleton.mp hst with rfl
                show (K.get ⟨i, h1⟩).count - (K.get ⟨j, h2⟩).count ≠ 0
                have hcells : (K.get ⟨i, h1⟩).cells = (K.get ⟨j, h2⟩).cells := by
                  rw [hempty _ (K.get_mem _ _), hempty _ (K.get_mem _ _)]
                have hcnt : (K.get ⟨i, h1⟩).count ≠ (K.get ⟨j, h2⟩).count := by
                  intro he
                  exact h3.2.2.2 (Sentence.eq_of_parts hcells he)
                omega
            · rw [List.length_append]
              simp
              omega
        · rw [if_neg h3]
          refine ih K i (j + 1) made ⟨hempty, hnd, hnz, hlen, ?_⟩
          rcases hlast with hm | ⟨p, q, hpos, hprod⟩
          · exact Or.inl hm
          · refine Or.inr ⟨p, q, ?_, hprod⟩
            by_cases hpq : p = i ∧ q = j
            · exfalso
              obtain ⟨rfl, rfl⟩ := hpq
              obtain ⟨hp, hq, hg, hnm⟩ := hprod
              exact h3 hg
            · omega
      · rw [dif_neg h2]
        refine ih K (i + 1) 0 made ⟨hempty, hnd, hnz, hlen, ?_⟩
        rcases hlast with hm | ⟨p, q, hpos, hprod⟩
        · exact Or.inl hm
        · refine Or.inr ⟨p, q, ?_, hprod⟩
          obtain ⟨hp, hq, _, _⟩ := hprod
          omega
    · rw [dif_neg h1]
      have hmade : made = true := by
        rcases hlast with hm | ⟨p, q, hpos, hprod⟩
        · exact hm
        · obtain ⟨hp, _, _, _⟩ := hprod
          exact absurd hp (by omega)
      subst hmade
      rw [if_pos rfl]
      refine ih K 0 0 false ⟨hempty, hnd, hnz, hlen, Or.inr ?_⟩
      obtain ⟨p, q, hprod⟩ := exists_producesAt K hempty hnd hnz hlen
      exact ⟨p, q, by omega, hprod⟩

/-- C1 refuted: on a 1x1 grid, `add_knowledge((0,0), 5)` terminates and
yields the reachable state `c1s1`, but the next call
`add_knowledge((0,0), 3)` — an in-bounds cell with a non-negative count —
never finishes: for every amount of fuel the subset-elimination loop is
still running (it keeps appending empty-cell sentences with ever new
counts).  This contradicts the claim that every call returns in finite
time. -/
theorem C1_nontermination :
    add_knowledge 20 (init 1 1) (0, 0) 5 = some c1s1 ∧
    ∀ n : ℕ, add_knowledge n c1s1 (0, 0) 3 = none := by
  refine ⟨by decide, ?_⟩
  intro n
  rw [add_knowledge]
  have hK : (extractionPass (observePhase c1s1 (0, 0) 3)).knowledge =
      [⟨∅, 5⟩, ⟨∅, 3⟩] := by decide
  rw [hK]
  rw [diverging_none n [⟨∅, 5⟩, ⟨∅, 3⟩] 0 0 false ?_]
  · rfl
  · refine ⟨by decide, by decide, by decide, by decide,
      Or.inr ⟨0, 1, by omega, ?_⟩⟩
    refine ⟨by decide, by decide, by decide, by decide⟩

end MSAI

namespace MSAI

open MinesweeperAI

/-! ### C3 amended: the knowledge base is closed under the subset rule after
every completed call

The `while True` loop exits only after a full pass over all sentence pairs
that appends nothing, so at that point every applicable pair already has its
derived difference sentence stored. -/

/-- `K` is closed under the subset rule: every pair of stored sentences to
which the rule applies already has its derived difference sentence stored. -/
def subsetClosed (K : List Sentence) : Prop :=
  ∀ A ∈ K, ∀ B ∈ K, B.cells ⊆ A.cells → A.count ≠ 0 → B.count ≠ 0 → A ≠ B →
    (⟨A.cells \ B.cells, A.count - B.count⟩ : Sentence) ∈ K

theorem subsetLoop_closed : ∀ (n : ℕ) (K : List Sentence) (i j : ℕ)
    (made : Bool) (K' : List Sentence),
    subsetLoop n K i j made = some K' →
    (made = false →
      ∀ p q : ℕ, (p < i ∨ (p = i ∧ q < j)) → ¬ producesAt K p q) →
    subsetClosed K' := by
  intro n
  induction n with
  | zero =>
    intro K i j made K' h _
    simp [subsetLoop] at h
  | succ n ih =>
    intro K i j made K' h hscan
    rw [subsetLoop] at h
    by_cases h1 : i < K.length
    · rw [dif_pos h1] at h
      by_cases h2 : j < K.length
      · rw [dif_pos h2] at h
        by_cases h3 : (K.get ⟨j, h2⟩).cells ⊆ (K.get ⟨i, h1⟩).cells ∧
            (K.get ⟨i, h1⟩).count ≠ 0 ∧ (K.get ⟨j, h2⟩).count ≠ 0 ∧
            K.get ⟨i, h1⟩ ≠ K.get ⟨j, h2⟩
        · rw [if_pos h3] at h
          by_cases h4 : (⟨(K.get ⟨i, h1⟩).cells \ (K.get ⟨j, h2⟩).cells,
              (K.get ⟨i, h1⟩).count - (K.get ⟨j, h2⟩).count⟩ : Sentence) ∈ K
          · rw [if_pos h4] at h
            refine ih K i (j + 1) made K' h ?_
            intro hmade p q hpq
            by_cases hpq2 : p = i ∧ q = j
            · obtain ⟨rfl, rfl⟩ := hpq2
              intro hprod
              obtain ⟨hp, hq, hg, hnm⟩ := hprod
              exact hnm h4
            · exact hscan hmade p q (by omega)
          · rw [if_neg h4] at h
            refine ih _ i (j + 1) true K' h ?_
            intro hmade
            exact absurd hmade (by simp)
        · rw [if_neg h3] at h
          refine ih K i (j + 1) made K' h ?_
          intro hmade p q hpq
          by_cases hpq2 : p = i ∧ q = j
          · obtain ⟨rfl, rfl⟩ := hpq2
            intro hprod
            obtain ⟨hp, hq, hg, hnm⟩ := hprod
            exact h3 hg
          · exact hscan hmade p q (by omega)
      · rw [dif_neg h2] at h
        refine ih K (i + 1) 0 made K' h ?_
        intro hmade p q hpq
        by_cases hq2 : q < K.length
        · exact hscan hmade p q (by omega)
        · intro hprod
          obtain ⟨hp, hq, _, _⟩ := hprod
          exact hq2 hq
    · rw [dif_neg h1] at h
      by_cases h5 : made
      · rw [if_pos h5] at h
        refine ih K 0 0 false K' h ?_
        intro _ p q hpq
        exact absurd hpq (by omega)
      · rw [if_neg h5] at h
        have hK : K = K' := Option.some.inj h
        subst hK
        intro A hA B hB hsub hA0 hB0 hAB
        obtain ⟨p, hgp⟩ := List.mem_iff_get.mp hA
        obtain ⟨q, hgq⟩ := List.mem_iff_get.mp hB
        by_contra hder
        have hprod : producesAt K p.1 q.1 := by
          refine ⟨p.2, q.2, ⟨?_, ?_, ?_, ?_⟩, ?_⟩
          · show (K.get q).cells ⊆ (K.get p).cells
            rw [hgp, hgq]
            exact hsub
          · show (K.get p).count ≠ 0
            rw [hgp]
            exact hA0
          · show (K.get q).count ≠ 0
            rw [hgq]
            exact hB0
          · show K.get p ≠ K.get q
            rw [hgp, hgq]
            exact hAB
          · show (⟨(K.get p).cells \ (K.get q).cells,
              (K.get p).count - (K.get q).count⟩ : Sentence) ∉ K
            rw [hgp, hgq]
            exact hder
        have hmf : made = false := by
          cases made
          · rfl
          · exact absurd rfl h5
        have hpl : p.1 < K.length := p.2
        exact hscan hmf p.1 q.1 (Or.inl (by omega)) hprod

theorem add_knowledge_subsetClosed {fuel : ℕ} {s s' : MinesweeperAI}
    {cell : Cell} {count : ℤ}
    (h : add_knowledge fuel s cell count = some s') :
    subsetClosed s'.knowledge := by
  rw [add_knowledge] at h
  rcases h2 : subsetLoop fuel
      (extractionPass (observePhase s cell count)).knowledge 0 0 false
    with _ | K
  · rw [h2] at h
    simp at h
  · rw [h2] at h
    have hs' := Option.some.inj h
    rw [← hs']
    show subsetClosed K
    refine subsetLoop_closed fuel _ 0 0 false K h2 ?_
    intro _ p q hpq
    exact absurd hpq (by omega)

/-- C3 amended: after every completed `add_knowledge` call, the stored
knowledge is closed under the subset rule — whenever it contains sentences
`A` and `B` with `B.cells ⊆ A.cells`, both counts nonzero and `A ≠ B`, it
also contains the derived sentence `(A.cells \ B.cells, A.count - B.count)`;
for `A = ({a,b,c}, 1)` and `B = ({a,b}, 1)` that sentence is `({c}, 0)`.
The extraction pass of the same call does NOT place `c` in `safes` (it runs
before the subset loop and is not re-run); the extraction pass of the next
call does, as the concrete run in the second conjunct shows (on a 1x6 grid
with `a = (0,0)`, `b = (0,1)`, `c = (0,2)`). -/
theorem C3_subset_closure_after_call :
    (∀ (fuel : ℕ) (s s' : MinesweeperAI) (cell : Cell) (count : ℤ),
      add_knowledge fuel s cell count = some s' →
      ∀ A ∈ s'.knowledge, ∀ B ∈ s'.knowledge, B.cells ⊆ A.cells →
        A.count ≠ 0 → B.count ≠ 0 → A ≠ B →
        (⟨A.cells \ B.cells, A.count - B.count⟩ : Sentence) ∈ s'.knowledge) ∧
    (add_knowledge 200 c3s0 (0, 5) 0 = some c3s1 ∧
     (⟨{(0, 2)}, 0⟩ : Sentence) ∈ c3s1.knowledge ∧
     ((0, 2) : Cell) ∉ c3s1.safes ∧
     add_knowledge 300 c3s1 (0, 4) 0 = some c3s2 ∧
     ((0, 2) : Cell) ∈ c3s2.safes) := by
  constructor
  · intro fuel s s' cell count h A hA B hB hsub hA0 hB0 hAB
    exact add_knowledge_subsetClosed h A hA B hB hsub hA0 hB0 hAB
  · exact ⟨by decide, by decide, by decide, by decide, by decide⟩

/-- Witness for the amended C3: applying the closure part to the completed
call `add_knowledge((0,5), 0)` on `c3s0` with `A = ({(0,0),(0,1),(0,2)}, 1)`
and `B = ({(0,0),(0,1)}, 1)` shows the derived sentence `({(0,2)}, 0)` is
stored. -/
theorem C3_witness : (⟨{(0, 2)}, 0⟩ : Sentence) ∈ c3s1.knowledge := by
  have h := C3_subset_closure_after_call.1 200 c3s0 c3s1 (0, 5) 0 (by decide)
    ⟨{(0, 0), (0, 1), (0, 2)}, 1⟩ (by decide) ⟨{(0, 0), (0, 1)}, 1⟩
    (by decide) (by decide) (by decide) (by decide) (by decide)
  exact h

end MSAI
